import Mathlib

/-! Verification of the streaming exchange-rate graph and arbitrage detector
(`parseRaydiumPoolState`, `updateGraphWithPoolState`, `Graph.addEdge`,
`bellmanFord`, `detectArbitrage`) as a shallow embedding.

Modelling conventions:
* Go `[]byte` is a `List ℕ` of byte values; `binary.LittleEndian.Uint64`
  becomes an explicit base-256 read of eight bytes.
* Go `float64` arithmetic on reserve ratios is idealised as exact `ℚ`
  arithmetic (every reachable ratio of two nonzero `uint64` reserves lies
  far inside the normal `float64` range, so no overflow/underflow occurs).
* `big.Float` division of values obtained from `SetUint64` is modelled by
  cases: `x/0 = +Inf` for `x ≠ 0`, while `Quo` panics with `ErrNaN` when
  both operands are zero; a panic is modelled as `Option.none` of the
  updating function.
* `-math.Log` is kept as an abstract parameter `negLog : ℚ → ℚ` of the
  edge-writing code: no claim depends on the numeric value of the stored
  weight field produced by the updater, only on the facts that
  `-math.Log p` is `±Inf`/`NaN` exactly when `p` is zero, negative or
  infinite (that guard is therefore expressed directly on the price) and
  that `math.Exp (-(-math.Log r)) = r` for the positive prices passed in.
* Go maps with `float64`/`string`/`bool` values are total functions whose
  value at a never-written key is the Go zero value (`some 0`-as-`0.0`
  does not apply to `dist`, whose missing keys read as `0.0`, modelled
  below by the initial function; `math.Inf(1)` is `Option.none`).
-/

/-- Byte read `data[k]`; `parseRaydiumPoolState` only calls it in bounds. -/
def byteAt (data : List ℕ) (k : ℕ) : ℕ := data.getD k 0

/-- Model of `binary.LittleEndian.Uint64(data[off:off+8])`: little-endian base-256. -/
def readU64LE (data : List ℕ) (off : ℕ) : ℕ :=
  byteAt data off +
    256 * (byteAt data (off + 1) +
      256 * (byteAt data (off + 2) +
        256 * (byteAt data (off + 3) +
          256 * (byteAt data (off + 4) +
            256 * (byteAt data (off + 5) +
              256 * (byteAt data (off + 6) +
                256 * byteAt data (off + 7)))))))

/-- The decoded Raydium pool state (all fields Go `uint64`). -/
structure RaydiumPoolState where
  Status : ℕ
  BaseDecimals : ℕ
  QuoteDecimals : ℕ
  LpDecimals : ℕ
  BaseReserve : ℕ
  QuoteReserve : ℕ
  BaseTarget : ℕ
  QuoteTarget : ℕ
  BaseAmountPerRnd : ℕ
  QuoteAmountPerRnd : ℕ
  deriving DecidableEq

/-- Decoder `parseRaydiumPoolState`: rejects inputs shorter than 128 bytes
(`len(data) < 128`), then reads ten little-endian `uint64` fields at
offsets 0,8,...,72. `none` models the returned error. -/
def parseRaydiumPoolState (data : List ℕ) : Option RaydiumPoolState :=
  if data.length < 128 then none
  else some
    { Status := readU64LE data 0
      BaseDecimals := readU64LE data 8
      QuoteDecimals := readU64LE data 16
      LpDecimals := readU64LE data 24
      BaseReserve := readU64LE data 32
      QuoteReserve := readU64LE data 40
      BaseTarget := readU64LE data 48
      QuoteTarget := readU64LE data 56
      BaseAmountPerRnd := readU64LE data 64
      QuoteAmountPerRnd := readU64LE data 72 }

/-- A directed edge of the exchange-rate graph. -/
structure Edge where
  From : String
  To : String
  Weight : ℚ
  Rate : ℚ
  deriving DecidableEq

/-- The exchange-rate graph (the `sync.RWMutex` guards concurrency only
and is not part of the sequential state). -/
structure Graph where
  Vertices : List String
  Edges : List Edge
  deriving DecidableEq

/-- Method `Graph.addEdge`: appends one directed edge; the stored weight is
`-math.Log rate`, abstracted as `negLog rate`. -/
def Graph.addEdge (negLog : ℚ → ℚ) (g : Graph) (src dst : String) (rate : ℚ) :
    Graph :=
  { g with Edges := g.Edges ++ [{ From := src, To := dst, Weight := negLog rate, Rate := rate }] }

/-- The hard-coded pool fee `fee := 0.003`. -/
def fee : ℚ := 3 / 1000

/-- Price `baseToQuotePrice`: `Quo(quoteReserve, baseReserve)` narrowed to
`float64`, then `*= (1 - fee)`; defined for nonzero `baseReserve`. -/
def baseToQuotePrice (baseReserve quoteReserve : ℕ) : ℚ :=
  ((quoteReserve : ℚ) / (baseReserve : ℚ)) * (1 - fee)

/-- Price `quoteToBasePrice`: `Quo(baseReserve, quoteReserve)` narrowed to
`float64`, then `*= (1 - fee)`; defined for nonzero `quoteReserve`. -/
def quoteToBasePrice (baseReserve quoteReserve : ℕ) : ℚ :=
  ((baseReserve : ℚ) / (quoteReserve : ℚ)) * (1 - fee)

/-- The vertex-updating block of `updateGraphWithPoolState`: scans
`graph.Vertices` for a vertex equal to `baseToken` OR `quoteToken`
(single shared `found` flag) and appends both tokens only when the scan
found neither. -/
def updateVertices (g : Graph) (baseToken quoteToken : String) : Graph :=
  if g.Vertices.any (fun v => v = baseToken || v = quoteToken) then g
  else { g with Vertices := g.Vertices ++ [baseToken, quoteToken] }

/-- Updater `updateGraphWithPoolState`.  Branch structure:
* both reserves zero: `big.Float.Quo` panics with `ErrNaN` (`none`);
* exactly one reserve zero: one price is `+Inf` and the other `0`, so
  one of the negated logs is `±Inf` and the
  `math.IsInf || math.IsNaN` guard fires, discarding the update and
  leaving the graph unchanged;
* both reserves nonzero: both prices are positive finite rationals, the
  guard cannot fire, the vertex block runs and the two directed edges
  are appended. -/
def updateGraphWithPoolState (negLog : ℚ → ℚ) (g : Graph)
    (state : RaydiumPoolState) (baseToken quoteToken : String) : Option Graph :=
  if state.BaseReserve = 0 ∧ state.QuoteReserve = 0 then none
  else if state.BaseReserve = 0 ∨ state.QuoteReserve = 0 then some g
  else
    let p1 := baseToQuotePrice state.BaseReserve state.QuoteReserve
    let p2 := quoteToBasePrice state.BaseReserve state.QuoteReserve
    let g1 := updateVertices g baseToken quoteToken
    some (Graph.addEdge negLog (Graph.addEdge negLog g1 baseToken quoteToken p1)
      quoteToken baseToken p2)

/-- Pool state carrying only the two reserves (other fields zero),
as produced by a decoded update. -/
def mkReserves (a b : ℕ) : RaydiumPoolState :=
  { Status := 0, BaseDecimals := 0, QuoteDecimals := 0, LpDecimals := 0
    BaseReserve := a, QuoteReserve := b, BaseTarget := 0, QuoteTarget := 0
    BaseAmountPerRnd := 0, QuoteAmountPerRnd := 0 }

/-- The empty initial graph built in `main`. -/
def initialGraph : Graph := { Vertices := [], Edges := [] }

/-- Number of directed edges currently stored from `src` to `dst`. -/
def directedEdgeCount (g : Graph) (src dst : String) : ℕ :=
  g.Edges.countP (fun e => e.From = src && e.To = dst)

/-!  The Bellman-Ford negative-cycle search.

`dist` is the Go map `map[string]float64`: a read of a never-written key
yields `0.0`, and `math.Inf(1)` is `Option.none` (the only non-finite
value ever stored).  `prev` is the Go map `map[string]string`, whose
missing-key read is `""` — indistinguishable in Go from a stored `""`,
so it is a total function with initial value `fun _ => ""`.  `visited`
is the Go map `map[string]bool` with missing-key read `false`. -/

/-- Go map write `m[k] = v` (string-keyed maps modelled as total functions). -/
def mapWrite {α : Type} (f : String → α) (k : String) (v : α) : String → α :=
  fun x => if x = k then v else f x

structure BFState where
  dist : String → Option ℚ
  prev : String → String

/-- The float comparison `newDist < dist[edge.To]`, where `none` is
`math.Inf(1)`. -/
def distLt (a : ℚ) (b : Option ℚ) : Bool :=
  match b with
  | none => true
  | some q => a < q

/-- One relaxation attempt of one edge:
`if dist[edge.From] != math.Inf(1) { newDist := dist[edge.From] + edge.Weight;
 if newDist < dist[edge.To] { dist[edge.To] = newDist; prev[edge.To] = edge.From } }`. -/
def relaxEdge (s : BFState) (e : Edge) : BFState :=
  match s.dist e.From with
  | none => s
  | some d =>
    if distLt (d + e.Weight) (s.dist e.To) then
      { dist := mapWrite s.dist e.To (some (d + e.Weight))
        prev := mapWrite s.prev e.To e.From }
    else s

/-- One pass of `for _, edge := range graph.Edges { relax }`. -/
def relaxPass (E : List Edge) (s : BFState) : BFState :=
  E.foldl relaxEdge s

/-- Loop `for i := 0; i < n-1; i++`, running `k` full passes. -/
def relaxRounds (E : List Edge) : ℕ → BFState → BFState
  | 0, s => s
  | k + 1, s => relaxRounds E k (relaxPass E s)

/-- Distances after `for _, v := range graph.Vertices { dist[v] = ∞ };
dist[start] = 0` (with `start ∈ graph.Vertices`), folded together with
the Go missing-key default `0.0` into one total function. -/
def initState (g : Graph) (start : String) : BFState :=
  { dist := fun v => if v ≠ start ∧ v ∈ g.Vertices then none else some 0
    prev := fun _ => "" }

/-- The linear scan `for i, v := range cycle { if v == next { cycleStart = i; break } }`. -/
def cycleStartIdx : List String → String → Option ℕ
  | [], _ => none
  | v :: rest, x => if v = x then some 0 else (cycleStartIdx rest x).map (· + 1)

/-- The profit recomputation loop over consecutive pairs of the
extracted cycle: for each pair, the first matching edge contributes
`math.Exp(-e.Weight)` — which equals the stored `e.Rate`, since
`addEdge` stores `Weight = -math.Log Rate` — to the `rates` list and to
the running product `amount` (initially `1.0`); pairs without a
matching edge contribute nothing. -/
def ratesAmount (E : List Edge) : List String → List ℚ × ℚ
  | a :: b :: rest =>
    let r := ratesAmount E (b :: rest)
    match E.find? (fun e => e.From = a && e.To = b) with
    | some e => (e.Rate :: r.1, e.Rate * r.2)
    | none => r
  | _ => ([], 1)

/-- The unbounded `for {}` walk along `prev` from `edge.From`.  Each
iteration requires `next` to be unvisited and then marks it visited, and
every non-`""` value of `prev` is the `From` of some relaxed edge, so
the Go loop runs at most `E.length` iterations; it is embedded with
fuel `E.length + 1`, which the loop can never exhaust.  Returns the
updated `visited` map and the emitted cycle, if any: on finding a
repeat inside the current chain it forms
`actualCycle := cycle[cycleStart:] ++ [next]`, recomputes its rates and
compounded amount, and emits it only when `amount > 1.0`. -/
def extractLoop (E : List Edge) (p : String → String) :
    ℕ → (String → Bool) → List String → String →
      (String → Bool) × Option (List String)
  | 0, visited, _, _ => (visited, none)
  | fuel + 1, visited, cycle, current =>
    let next := p current
    if next = "" then (visited, none)
    else if visited next then
      match cycleStartIdx cycle next with
      | some i =>
        let actualCycle := cycle.drop i ++ [next]
        if 1 < (ratesAmount E actualCycle).2 then (visited, some actualCycle)
        else (visited, none)
      | none => (visited, none)
    else
      extractLoop E p fuel (mapWrite visited next true)
        (cycle ++ [next]) next

/-- The final check pass: for every edge that still relaxes
(`dist[edge.From] != ∞ && dist[edge.From]+w < dist[edge.To]`), start a
predecessor walk at `edge.From` (marking it visited first) and append
any emitted cycle to `opportunities`.  `dist` and `prev` are read-only
here; `visited` is shared across the whole pass. -/
def finalPass (E : List Edge) (s : BFState) :
    List Edge → (String → Bool) → List (List String) → List (List String)
  | [], _, opps => opps
  | e :: rest, visited, opps =>
    match s.dist e.From with
    | none => finalPass E s rest visited opps
    | some d =>
      if distLt (d + e.Weight) (s.dist e.To) then
        match extractLoop E s.prev (E.length + 1)
          (mapWrite visited e.From true) [e.From] e.From with
        | (visited2, some c) => finalPass E s rest visited2 (opps ++ [c])
        | (visited2, none) => finalPass E s rest visited2 opps
      else finalPass E s rest visited opps

/-- Search `bellmanFord`: for each start vertex, `n-1` relaxation passes from
the freshly initialised state, then the final check pass accumulating
into the shared `opportunities` slice. -/
def bellmanFord (g : Graph) : List (List String) :=
  if g.Vertices.length = 0 then []
  else
    g.Vertices.foldl
      (fun opps start =>
        finalPass g.Edges
          (relaxRounds g.Edges (g.Vertices.length - 1) (initState g start))
          g.Edges (fun _ => false) opps)
      []

/-- One tick of the `detectArbitrage` loop: under the read lock, skip
(reporting nothing) when `len(graph.Vertices) < 2` or
`len(graph.Edges) < 2`, otherwise run `bellmanFord` and forward its
opportunities. -/
def detectTick (g : Graph) : List (List String) :=
  if g.Vertices.length < 2 then []
  else if g.Edges.length < 2 then []
  else bellmanFord g

/-- A concrete 1-vertex graph with a single self-loop edge,
used to witness the insufficient-data claims. -/
def oneVertexGraph : Graph :=
  { Vertices := ["X"]
    Edges := [{ From := "X", To := "X", Weight := 1, Rate := 1 }] }

/-- A concrete 2-vertex graph with no edges, used to witness the
emptiness claim. -/
def edgelessGraph : Graph := { Vertices := ["X", "Y"], Edges := [] }

/-!  Specification-side notions used to state and prove the detector
claims: walks in the edge collection and their weight, plus the two
data-structure invariants the relaxation loop maintains. -/

/-- Walks: `IsPath E l a b` says the edge sequence `l` is a walk from `a` to `b`
using (possibly repeated) edges of `E`. -/
def IsPath (E : List Edge) : List Edge → String → String → Prop
  | [], a, b => a = b
  | e :: l, a, b => e ∈ E ∧ e.From = a ∧ IsPath E l e.To b

/-- Total weight of an edge sequence. -/
def weightSum (l : List Edge) : ℚ :=
  (l.map Edge.Weight).sum

/-- No closed walk of the edge collection has negative total weight;
since each edge's weight is `-math.Log` of its rate, this says exactly
that no closed walk has a rate product exceeding 1. -/
def NoNegCycle (E : List Edge) : Prop :=
  ∀ (l : List Edge) (a : String), l ≠ [] → IsPath E l a a → 0 ≤ weightSum l

/-- Relaxation invariant: every set predecessor pointer is witnessed by
an edge whose relaxation established it, and the recorded distances are
finite and consistent with that edge. -/
def BFInv (E : List Edge) (dist : String → Option ℚ) (p : String → String) : Prop :=
  ∀ v, p v ≠ "" →
    ∃ f ∈ E, f.From = p v ∧ f.To = v ∧
      ∃ qv qu : ℚ, dist v = some qv ∧ dist (p v) = some qu ∧
        qu + f.Weight ≤ qv

/-- The predecessor map contains a cycle of non-`""` vertices. -/
def HasCycle (p : String → String) : Prop :=
  ∃ (v : String) (n : ℕ), v ≠ "" ∧ 0 < n ∧ (∀ k < n, p^[k] v ≠ "") ∧ p^[n] v = v

/-! Claims about the decoder. -/

theorem readU64LE_congr {d1 d2 : List ℕ} (h : ∀ i < 80, byteAt d1 i = byteAt d2 i)
    {off : ℕ} (hoff : off + 8 ≤ 80) : readU64LE d1 off = readU64LE d2 off := by
  unfold readU64LE
  rw [h off (by omega), h (off + 1) (by omega), h (off + 2) (by omega),
    h (off + 3) (by omega), h (off + 4) (by omega), h (off + 5) (by omega),
    h (off + 6) (by omega), h (off + 7) (by omega)]

/-- C2 (counterexample): the decoder's actual minimum is `128`, not `80`:
an 80-byte input (which the claim says must decode) is rejected. -/
theorem parse_len80_is_rejected :
    80 ≤ (List.replicate 80 (0 : ℕ)).length ∧
      parseRaydiumPoolState (List.replicate 80 (0 : ℕ)) = none := by
  exact ⟨by decide, rfl⟩

/-- C2 (amended): `parseRaydiumPoolState` produces a snapshot exactly
when the input has at least 128 bytes (`len(data) < 128` is the sole
rejection test); shorter input — including the spec's 40-byte and
one-byte-short examples — yields the `MalformedData` error and no
snapshot. -/
theorem parse_ok_iff_len128 :
    ∀ data : List ℕ, (parseRaydiumPoolState data).isSome = true ↔ 128 ≤ data.length := by
  intro data
  by_cases h : data.length < 128
  · simp [parseRaydiumPoolState, h]
    try omega
  · simp [parseRaydiumPoolState, h]
    try omega

/-- C10: the decoded snapshot depends only on bytes 0–79: two accepted
inputs that agree on those bytes decode identically, regardless of the
bytes at offset 80 and beyond. -/
theorem parse_reads_only_first_80_bytes :
    ∀ d1 d2 : List ℕ, 128 ≤ d1.length → 128 ≤ d2.length →
      (∀ i < 80, byteAt d1 i = byteAt d2 i) →
      parseRaydiumPoolState d1 = parseRaydiumPoolState d2 := by
  intro d1 d2 h1 h2 h
  unfold parseRaydiumPoolState
  rw [if_neg (by omega), if_neg (by omega)]
  simp only [Option.some.injEq, RaydiumPoolState.mk.injEq]
  refine ⟨?_, ?_, ?_, ?_, ?_, ?_, ?_, ?_, ?_, ?_⟩ <;>
    exact readU64LE_congr h (by omega)

set_option maxRecDepth 40000 in
/-- Witness for C10 at two concrete inputs differing only from byte 100
on (and in length). -/
theorem parse_reads_only_first_80_bytes_witness :
    128 ≤ (List.replicate 128 (0 : ℕ)).length ∧
      128 ≤ (List.replicate 100 (0 : ℕ) ++ List.replicate 29 (7 : ℕ)).length ∧
      (∀ i < 80, byteAt (List.replicate 128 (0 : ℕ)) i =
        byteAt (List.replicate 100 (0 : ℕ) ++ List.replicate 29 (7 : ℕ)) i) ∧
      parseRaydiumPoolState (List.replicate 128 (0 : ℕ)) =
        parseRaydiumPoolState (List.replicate 100 (0 : ℕ) ++ List.replicate 29 (7 : ℕ)) :=
  ⟨by decide, by decide, by decide,
    parse_reads_only_first_80_bytes _ _ (by decide) (by decide) (by decide)⟩

/-! Claims about the graph update. -/

/-- C1 (code evaluated at the failing input): two successive upserts for
the same USDC/SOL pool leave two coexisting USDC→SOL edges — `addEdge`
appends unconditionally and nothing removes the pool's previous pair, so
the stale edge stays next to the fresh one (for any weight function). -/
theorem upsert_twice_leaves_two_directed_edges :
    ∀ negLog : ℚ → ℚ,
      ((updateGraphWithPoolState negLog initialGraph (mkReserves 1000 1000) "USDC" "SOL").bind
        (fun g => updateGraphWithPoolState negLog g (mkReserves 2000 1000) "USDC" "SOL")).map
        (fun g => directedEdgeCount g "USDC" "SOL") = some 2 := by
  intro negLog
  rfl

/-- C3 (code evaluated at the failing input): upserting a USDC/SOL pool
into a graph that already contains `"USDC"` but not `"SOL"` leaves the
vertex set unchanged — the single shared `found` flag skips the append
of both tokens, so the new token `"SOL"` is never added even though both
directed edges referencing it are. -/
theorem upsert_skips_new_vertex_when_other_present :
    ∀ negLog : ℚ → ℚ,
      (updateGraphWithPoolState negLog { Vertices := ["USDC"], Edges := [] }
          (mkReserves 5 7) "USDC" "SOL").map Graph.Vertices = some ["USDC"] ∧
        "SOL" ∉ (["USDC"] : List String) :=
  fun _ => ⟨rfl, by decide⟩

/-- C7 (code evaluated at the failing input): with both reserves zero the
update panics (`big.Float.Quo` with two zero operands panics with
`ErrNaN`, crashing the monitoring goroutine) instead of being discarded;
with exactly one zero reserve the rate guard fires and the update is
discarded leaving the graph unchanged, as the claim describes. -/
theorem zero_reserve_update_behaviour :
    ∀ (negLog : ℚ → ℚ) (g : Graph),
      updateGraphWithPoolState negLog g (mkReserves 0 0) "USDC" "SOL" = none ∧
        updateGraphWithPoolState negLog g (mkReserves 0 5) "USDC" "SOL" = some g ∧
        updateGraphWithPoolState negLog g (mkReserves 5 0) "USDC" "SOL" = some g :=
  fun _ _ => ⟨rfl, rfl, rfl⟩

/-- C6: for positive reserves the two stored rates are
`(reserveB/reserveA)*(1-fee)` and `(reserveA/reserveB)*(1-fee)` (exact
division, idealising the `big.Float` quotient narrowed to `float64`),
and on Scenario A (base 1,000,000, quote 10,000, fee 0.30%) they are
`0.009970` exactly and `99.7` (within `0.001` of the quoted
`99.70075`). -/
theorem upsert_stores_fee_adjusted_reserve_ratios :
    (∀ (negLog : ℚ → ℚ) (a b : ℕ), 0 < a → 0 < b →
      (updateGraphWithPoolState negLog initialGraph (mkReserves a b) "USDC" "SOL").map
          (fun g => g.Edges.map Edge.Rate) =
        some [((b : ℚ) / (a : ℚ)) * (1 - fee), ((a : ℚ) / (b : ℚ)) * (1 - fee)]) ∧
      baseToQuotePrice 1000000 10000 = 0.009970 ∧
      quoteToBasePrice 1000000 10000 = 99.7 ∧
      |quoteToBasePrice 1000000 10000 - 99.70075| < 0.001 := by
  refine ⟨?_, ?_, ?_, ?_⟩
  · intro negLog a b ha hb
    have h1 : ¬((mkReserves a b).BaseReserve = 0 ∧ (mkReserves a b).QuoteReserve = 0) := by
      simp only [mkReserves]
      omega
    have h2 : ¬((mkReserves a b).BaseReserve = 0 ∨ (mkReserves a b).QuoteReserve = 0) := by
      simp only [mkReserves]
      omega
    unfold updateGraphWithPoolState
    rw [if_neg h1, if_neg h2]
    rfl
  · norm_num [baseToQuotePrice, fee]
  · norm_num [quoteToBasePrice, fee]
  · rw [abs_lt]
    norm_num [quoteToBasePrice, fee]

/-- Witness for C6 at concrete positive reserves. -/
theorem upsert_stores_fee_adjusted_reserve_ratios_witness :
    0 < 3 ∧ 0 < 5 ∧
      (updateGraphWithPoolState (fun _ => 0) initialGraph (mkReserves 3 5) "USDC" "SOL").map
          (fun g => g.Edges.map Edge.Rate) =
        some [((5 : ℚ) / (3 : ℚ)) * (1 - fee), ((3 : ℚ) / (5 : ℚ)) * (1 - fee)] :=
  ⟨by decide, by decide,
    upsert_stores_fee_adjusted_reserve_ratios.1 (fun _ => 0) 3 5 (by decide) (by decide)⟩

/-- C8: with `reserveA` fixed and positive, the computed base→quote rate
is strictly increasing in `reserveB` and the quote→base rate strictly
decreasing. -/
theorem rate_computation_inverse_monotonic :
    ∀ a b b' : ℕ, 0 < a → 0 < b → b < b' →
      baseToQuotePrice a b < baseToQuotePrice a b' ∧
        quoteToBasePrice a b' < quoteToBasePrice a b := by
  intro a b b' ha hb hbb
  have ha' : (0 : ℚ) < (a : ℚ) := by exact_mod_cast ha
  have hb' : (0 : ℚ) < (b : ℚ) := by exact_mod_cast hb
  have hbb' : (b : ℚ) < (b' : ℚ) := by exact_mod_cast hbb
  have hfee : (0 : ℚ) < 1 - fee := by norm_num [fee]
  constructor
  · unfold baseToQuotePrice
    have h : (b : ℚ) / (a : ℚ) < (b' : ℚ) / (a : ℚ) := by gcongr
    exact mul_lt_mul_of_pos_right h hfee
  · unfold quoteToBasePrice
    have h : (a : ℚ) / (b' : ℚ) < (a : ℚ) / (b : ℚ) := by gcongr
    exact mul_lt_mul_of_pos_right h hfee

/-- Witness for C8 at concrete reserves. -/
theorem rate_computation_inverse_monotonic_witness :
    0 < 2 ∧ 0 < 3 ∧ 3 < 5 ∧
      (baseToQuotePrice 2 3 < baseToQuotePrice 2 5 ∧
        quoteToBasePrice 2 5 < quoteToBasePrice 2 3) :=
  ⟨by decide, by decide, by decide,
    rate_computation_inverse_monotonic 2 3 5 (by decide) (by decide) (by decide)⟩

/-! Detector soundness (claim C4). -/

theorem extractLoop_sound {E : List Edge} {p : String → String} :
    ∀ (fuel : ℕ) (vis : String → Bool) (cyc : List String) (cur : String)
      {vis2 : String → Bool} {c : List String},
      extractLoop E p fuel vis cyc cur = (vis2, some c) →
      1 < (ratesAmount E c).2 := by
  intro fuel
  induction fuel with
  | zero =>
    intro vis cyc cur vis2 c h
    simp [extractLoop] at h
  | succ fuel ih =>
    intro vis cyc cur vis2 c h
    simp only [extractLoop] at h
    split at h
    · simp at h
    · split at h
      · split at h
        · split at h
          · next hamt =>
            rw [Prod.mk.injEq] at h
            obtain ⟨-, h2⟩ := h
            rw [Option.some.injEq] at h2
            rw [← h2]
            exact hamt
          · simp at h
        · simp at h
      · exact ih _ _ _ h

theorem finalPass_sound {E : List Edge} {s : BFState} :
    ∀ (rest : List Edge) (vis : String → Bool) (opps : List (List String)),
      (∀ c ∈ opps, 1 < (ratesAmount E c).2) →
      ∀ c ∈ finalPass E s rest vis opps, 1 < (ratesAmount E c).2 := by
  intro rest
  induction rest with
  | nil =>
    intro vis opps hopps c hc
    exact hopps c hc
  | cons e rest ih =>
    intro vis opps hopps c hc
    simp only [finalPass] at hc
    split at hc
    · exact ih _ _ hopps c hc
    · split at hc
      · split at hc
        · next vis2 c2 heq =>
          refine ih _ _ ?_ c hc
          intro c3 hc3
          rcases List.mem_append.mp hc3 with h3 | h3
          · exact hopps c3 h3
          · rw [List.mem_singleton.mp h3]
            exact extractLoop_sound _ _ _ _ heq
        · exact ih _ _ hopps c hc
      · exact ih _ _ hopps c hc

theorem foldl_finalPass_sound (g : Graph) :
    ∀ (starts : List String) (opps : List (List String)),
      (∀ c ∈ opps, 1 < (ratesAmount g.Edges c).2) →
      ∀ c ∈ starts.foldl
          (fun opps2 start =>
            finalPass g.Edges
              (relaxRounds g.Edges (g.Vertices.length - 1) (initState g start))
              g.Edges (fun _ => false) opps2)
          opps,
        1 < (ratesAmount g.Edges c).2 := by
  intro starts
  induction starts with
  | nil =>
    intro opps h c hc
    exact h c hc
  | cons st starts ih =>
    intro opps h c hc
    rw [List.foldl_cons] at hc
    exact ih _ (fun c2 hc2 => finalPass_sound _ _ _ h c2 hc2) c hc

/-- C4: every cycle returned by `bellmanFord` has compounded multiplier
— the product of the rates of the (first matching) edges of its
consecutive token pairs, exactly as the emission code recomputes it —
strictly greater than 1: the `amount > 1.0` guard is checked before any
cycle is appended to `opportunities`. -/
theorem detector_soundness :
    ∀ g : Graph, (bellmanFord g).Forall (fun c => 1 < (ratesAmount g.Edges c).2) := by
  intro g
  rw [List.forall_iff_forall_mem]
  unfold bellmanFord
  split
  · simp
  · exact foldl_finalPass_sound g g.Vertices [] (by simp)

/-! Insufficient-data short circuit (claim C9). -/

theorem extractLoop_prev_blank {E : List Edge} (fuel : ℕ)
    (vis : String → Bool) (cyc : List String) (cur : String) :
    extractLoop E (fun _ => "") fuel vis cyc cur = (vis, none) := by
  cases fuel with
  | zero => rfl
  | succ fuel => simp [extractLoop]

theorem finalPass_prev_blank {E : List Edge} {s : BFState}
    (hprev : s.prev = fun _ => "") :
    ∀ (rest : List Edge) (vis : String → Bool) (opps : List (List String)),
      finalPass E s rest vis opps = opps := by
  intro rest
  induction rest with
  | nil => intro vis opps; rfl
  | cons e rest ih =>
    intro vis opps
    simp only [finalPass]
    split
    · exact ih _ _
    · split
      · rw [hprev, extractLoop_prev_blank]
        exact ih _ _
      · exact ih _ _

theorem bellmanFord_single_vertex (g : Graph) (h : g.Vertices.length = 1) :
    bellmanFord g = [] := by
  obtain ⟨v, hv⟩ := List.length_eq_one.mp h
  unfold bellmanFord
  rw [hv]
  rw [if_neg (by simp)]
  simp only [List.foldl_cons, List.foldl_nil]
  exact finalPass_prev_blank rfl _ _ _

/-- C9: a detection tick on a graph with fewer than 2 vertices or fewer
than 2 edges skips the search and reports nothing, and `bellmanFord`
invoked directly on a 1-vertex graph returns the empty result (zero
relaxation passes leave every predecessor pointer `""`, so the final
check pass can never reconstruct a cycle). -/
theorem insufficient_data_short_circuit :
    ∀ g : Graph,
      (g.Vertices.length < 2 ∨ g.Edges.length < 2 → detectTick g = []) ∧
        (g.Vertices.length = 1 → bellmanFord g = []) := by
  intro g
  constructor
  · intro h
    unfold detectTick
    rcases h with h | h
    · rw [if_pos h]
    · by_cases h2 : g.Vertices.length < 2
      · rw [if_pos h2]
      · rw [if_neg h2, if_pos h]
  · exact bellmanFord_single_vertex g

/-- Witness for C9 on a concrete 1-vertex graph with a self-loop edge. -/
theorem insufficient_data_short_circuit_witness :
    (oneVertexGraph.Vertices.length < 2 ∨ oneVertexGraph.Edges.length < 2) ∧
      detectTick oneVertexGraph = [] ∧
      oneVertexGraph.Vertices.length = 1 ∧
      bellmanFord oneVertexGraph = [] :=
  ⟨Or.inl (by decide),
    (insufficient_data_short_circuit _).1 (Or.inl (by decide)),
    by decide,
    (insufficient_data_short_circuit _).2 (by decide)⟩

/-! Detector completeness of emptiness (claim C5): machinery. -/

theorem mapWrite_self {α : Type} (f : String → α) (k : String) (v : α) :
    mapWrite f k v k = v := by
  simp [mapWrite]

theorem mapWrite_ne {α : Type} (f : String → α) {k x : String} (v : α)
    (h : x ≠ k) : mapWrite f k v x = f x := by
  simp [mapWrite, h]

theorem distLt_some {a : ℚ} {b : Option ℚ} (h : distLt a b = true) :
    ∀ q, b = some q → a < q := by
  intro q hq
  rw [hq] at h
  simpa [distLt] using h

theorem iterate_mod (p : String → String) (v : String) (n : ℕ) (hn : 0 < n)
    (hper : p^[n] v = v) : ∀ m, p^[m] v = p^[m % n] v := by
  intro m
  induction m using Nat.strong_induction_on with
  | _ m ih =>
    by_cases h : m < n
    · rw [Nat.mod_eq_of_lt h]
    · have hmn : n ≤ m := le_of_not_lt h
      have h1 : m = (m - n) + n := by omega
      have h2 : p^[m] v = p^[m - n] v := by
        conv_lhs => rw [h1]
        rw [Function.iterate_add_apply, hper]
      rw [h2, ih (m - n) (by omega), Nat.mod_eq_sub_mod hmn]

theorem not_hasCycle_blank : ¬ HasCycle (fun _ => "") := by
  rintro ⟨v, n, hv, hn, horb, hper⟩
  cases n with
  | zero => omega
  | succ n =>
    rw [Function.iterate_succ_apply'] at hper
    exact hv hper.symm

theorem cycleStartIdx_mem : ∀ {l : List String} {x : String} {i : ℕ},
    cycleStartIdx l x = some i → x ∈ l := by
  intro l
  induction l with
  | nil => intro x i h; simp [cycleStartIdx] at h
  | cons v rest ih =>
    intro x i h
    simp only [cycleStartIdx] at h
    split at h
    · next heq => rw [← heq]; exact List.mem_cons_self _ _
    · obtain ⟨a, ha, -⟩ := Option.map_eq_some'.mp h
      exact List.mem_cons_of_mem _ (ih ha)

theorem bfinv_init (E : List Edge) (g : Graph) (start : String) :
    BFInv E (initState g start).dist (initState g start).prev := by
  intro v hv
  exact absurd rfl hv

/-- Telescoping the invariant along a predecessor chain of length `m`
produces a graph walk from the chain's end back to its start whose
total weight is bounded by the recorded distances. -/
theorem bf_telescope {E : List Edge} {dist : String → Option ℚ}
    {p : String → String} (hInv : BFInv E dist p) :
    ∀ m : ℕ, 1 ≤ m → ∀ a : String,
      (∀ k, k < m → p (p^[k] a) ≠ "") →
      ∃ (l : List Edge) (qa qb : ℚ),
        IsPath E l (p^[m] a) a ∧ dist a = some qa ∧
          dist (p^[m] a) = some qb ∧ qb + weightSum l ≤ qa := by
  intro m
  induction m with
  | zero => omega
  | succ m ihm =>
    intro _ a hcond
    by_cases hm0 : m = 0
    · subst hm0
      have hpa : p a ≠ "" := by
        have := hcond 0 (by omega)
        simpa using this
      obtain ⟨f, hfE, hfF, hfT, qv, qu, hqv, hqu, hle⟩ := hInv a hpa
      refine ⟨[f], qv, qu, ?_, hqv, ?_, ?_⟩
      · refine ⟨hfE, ?_, ?_⟩
        · rw [Function.iterate_one]; exact hfF
        · exact hfT
      · rw [Function.iterate_one]; exact hqu
      · simpa [weightSum] using hle
    · have hm1 : 1 ≤ m := by omega
      obtain ⟨l, qa, qb, hpathl, hqa, hqb, hsum⟩ :=
        ihm hm1 a (fun k hk => hcond k (by omega))
      have hx : p (p^[m] a) ≠ "" := hcond m (by omega)
      obtain ⟨f, hfE, hfF, hfT, qv, qu, hqv, hqu, hle⟩ := hInv (p^[m] a) hx
      have hvb : qv = qb := by
        rw [hqv] at hqb
        exact Option.some.inj hqb
      refine ⟨f :: l, qa, qu, ?_, hqa, ?_, ?_⟩
      · refine ⟨hfE, ?_, ?_⟩
        · rw [Function.iterate_succ_apply']
          exact hfF
        · rw [hfT]; exact hpathl
      · rw [Function.iterate_succ_apply']
        exact hqu
      · have hws : weightSum (f :: l) = f.Weight + weightSum l := by
          simp [weightSum]
        rw [hws]
        rw [hvb] at hle
        linarith

/-- A successful relaxation of `e` preserves the invariant. -/
theorem update_preserves_inv {E : List Edge} {s : BFState}
    (hInv : BFInv E s.dist s.prev) {e : Edge} (heE : e ∈ E) {d : ℚ}
    (hd : s.dist e.From = some d)
    (hlt : distLt (d + e.Weight) (s.dist e.To) = true) :
    BFInv E (mapWrite s.dist e.To (some (d + e.Weight)))
      (mapWrite s.prev e.To e.From) := by
  intro v hv
  by_cases hve : v = e.To
  · subst hve
    rw [mapWrite_self] at hv
    refine ⟨e, heE, (mapWrite_self s.prev e.To e.From).symm, rfl, ?_⟩
    rw [mapWrite_self s.prev e.To e.From]
    by_cases hfe : e.From = e.To
    · refine ⟨d + e.Weight, d + e.Weight, mapWrite_self _ _ _, ?_, ?_⟩
      · rw [hfe, mapWrite_self]
      · have hdt : s.dist e.To = some d := by rw [← hfe]; exact hd
        have hwd : d + e.Weight < d := distLt_some hlt d hdt
        linarith
    · refine ⟨d + e.Weight, d, mapWrite_self _ _ _, ?_, le_refl _⟩
      rw [mapWrite_ne _ _ hfe]
      exact hd
  · have hpv : mapWrite s.prev e.To e.From v = s.prev v := mapWrite_ne _ _ hve
    have hdv : mapWrite s.dist e.To (some (d + e.Weight)) v = s.dist v :=
      mapWrite_ne _ _ hve
    rw [hpv] at hv
    rw [hpv, hdv]
    obtain ⟨f, hfE, hfF, hfT, qv, qu, hqv, hqu, hle⟩ := hInv v hv
    refine ⟨f, hfE, hfF, hfT, ?_⟩
    by_cases hpve : s.prev v = e.To
    · have hqlt : d + e.Weight < qu := by
        refine distLt_some hlt qu ?_
        rw [← hpve]
        exact hqu
      refine ⟨qv, d + e.Weight, hqv, ?_, by linarith⟩
      rw [hpve, mapWrite_self]
    · refine ⟨qv, qu, hqv, ?_, hle⟩
      rw [mapWrite_ne _ _ hpve]
      exact hqu

/-- A successful relaxation of `e` cannot create a predecessor cycle
when no closed walk of the edge collection has negative weight. -/
theorem update_preserves_acyc {E : List Edge} (hNN : NoNegCycle E) {s : BFState}
    (hInv : BFInv E s.dist s.prev) (hAc : ¬ HasCycle s.prev) {e : Edge}
    (heE : e ∈ E) {d : ℚ} (hd : s.dist e.From = some d)
    (hlt : distLt (d + e.Weight) (s.dist e.To) = true) :
    ¬ HasCycle (mapWrite s.prev e.To e.From) := by
  set p2 := mapWrite s.prev e.To e.From with hp2def
  rintro ⟨v, n, hv, hn, horb, hper⟩
  by_cases hto : ∃ k, k < n ∧ p2^[k] v = e.To
  case neg =>
    apply hAc
    push_neg at hto
    have hagree : ∀ k, k ≤ n → p2^[k] v = s.prev^[k] v := by
      intro k hk
      induction k with
      | zero => rfl
      | succ k ihk =>
        have hne : p2^[k] v ≠ e.To := hto k (by omega)
        rw [Function.iterate_succ_apply', Function.iterate_succ_apply',
          ← ihk (by omega), hp2def]
        rw [← hp2def]
        have : p2 (p2^[k] v) = s.prev (p2^[k] v) := by
          rw [hp2def]
          exact mapWrite_ne _ _ hne
        rw [this]
    refine ⟨v, n, hv, hn, ?_, ?_⟩
    · intro k hk
      rw [← hagree k (le_of_lt hk)]
      exact horb k hk
    · rw [← hagree n le_rfl]
      exact hper
  case pos =>
    obtain ⟨k0, hk0, hk0e⟩ := hto
    have hperTo : p2^[n] e.To = e.To := by
      rw [← hk0e, ← Function.iterate_add_apply, Nat.add_comm,
        Function.iterate_add_apply, hper, hk0e]
    have horbTo : ∀ m, p2^[m] e.To ≠ "" := by
      intro m
      rw [← hk0e, ← Function.iterate_add_apply,
        iterate_mod p2 v n hn hper (m + k0)]
      exact horb _ (Nat.mod_lt _ hn)
    have hex : ∃ j, 0 < j ∧ p2^[j] e.To = e.To := ⟨n, hn, hperTo⟩
    have hj := Nat.find_spec hex
    have hjmin : ∀ k, k < Nat.find hex → ¬ (0 < k ∧ p2^[k] e.To = e.To) :=
      fun k hk => Nat.find_min hex hk
    have hp2To : p2 e.To = e.From := mapWrite_self _ _ _
    by_cases hself : e.From = e.To
    · have hdTo : s.dist e.To = some d := by rw [← hself]; exact hd
      have hwd : d + e.Weight < d := distLt_some hlt d hdTo
      have hw : e.Weight < 0 := by linarith
      have hpath : IsPath E [e] e.From e.From := ⟨heE, rfl, hself.symm⟩
      have h0 := hNN [e] e.From (by simp) hpath
      simp [weightSum] at h0
      linarith
    · have hj1 : Nat.find hex ≠ 1 := by
        intro h1
        apply hself
        have h2 := hj.2
        rw [h1, Function.iterate_one, hp2To] at h2
        exact h2
      have hj2 : 2 ≤ Nat.find hex := by
        have := hj.1
        omega
      have hchain : ∀ k, k ≤ Nat.find hex - 1 →
          s.prev^[k] e.From = p2^[k + 1] e.To := by
        intro k hk
        induction k with
        | zero =>
          simp [hp2To]
        | succ k ihk =>
          have hne : p2^[k + 1] e.To ≠ e.To := by
            intro hEq
            exact (hjmin (k + 1) (by omega)) ⟨by omega, hEq⟩
          rw [Function.iterate_succ_apply', ihk (by omega)]
          have hstep : s.prev (p2^[k + 1] e.To) = p2 (p2^[k + 1] e.To) :=
            (mapWrite_ne _ _ hne).symm
          rw [hstep]
          exact (Function.iterate_succ_apply' p2 (k + 1) e.To).symm
      have hreach : s.prev^[Nat.find hex - 1] e.From = e.To := by
        rw [hchain (Nat.find hex - 1) le_rfl]
        have heq : Nat.find hex - 1 + 1 = Nat.find hex := by omega
        rw [heq]
        exact hj.2
      have hcond : ∀ k, k < Nat.find hex - 1 →
          s.prev (s.prev^[k] e.From) ≠ "" := by
        intro k hk
        have hrw : s.prev (s.prev^[k] e.From) = s.prev^[k + 1] e.From :=
          (Function.iterate_succ_apply' s.prev k e.From).symm
        rw [hrw, hchain (k + 1) (by omega)]
        exact horbTo (k + 2)
      obtain ⟨l, qa, qb, hpathl, hqa, hqb, hsum⟩ :=
        bf_telescope hInv (Nat.find hex - 1) (by omega) e.From hcond
      rw [hreach] at hpathl hqb
      rw [hd] at hqa
      have hda : d = qa := Option.some.inj hqa
      have hbd : d + e.Weight < qb := distLt_some hlt qb hqb
      have hpath : IsPath E (e :: l) e.From e.From := ⟨heE, rfl, hpathl⟩
      have h0 := hNN (e :: l) e.From (by simp) hpath
      have hws : weightSum (e :: l) = e.Weight + weightSum l := by
        simp [weightSum]
      rw [hws] at h0
      linarith

/-- One relaxation attempt preserves both invariants. -/
theorem relaxEdge_preserves {E : List Edge} (hNN : NoNegCycle E) {s : BFState}
    (h : BFInv E s.dist s.prev ∧ ¬ HasCycle s.prev) {e : Edge} (heE : e ∈ E) :
    BFInv E (relaxEdge s e).dist (relaxEdge s e).prev ∧
      ¬ HasCycle (relaxEdge s e).prev := by
  obtain ⟨hInv, hAc⟩ := h
  unfold relaxEdge
  split
  · exact ⟨hInv, hAc⟩
  · next d hd =>
    split
    · next hlt =>
      exact ⟨update_preserves_inv hInv heE hd hlt,
        update_preserves_acyc hNN hInv hAc heE hd hlt⟩
    · exact ⟨hInv, hAc⟩

theorem foldl_relax_preserves {E : List Edge} (hNN : NoNegCycle E) :
    ∀ l : List Edge, (∀ e ∈ l, e ∈ E) → ∀ s : BFState,
      BFInv E s.dist s.prev ∧ ¬ HasCycle s.prev →
      BFInv E (l.foldl relaxEdge s).dist (l.foldl relaxEdge s).prev ∧
        ¬ HasCycle (l.foldl relaxEdge s).prev := by
  intro l
  induction l with
  | nil => intro _ s h; exact h
  | cons e l ih =>
    intro hsub s h
    rw [List.foldl_cons]
    exact ih (fun x hx => hsub x (List.mem_cons_of_mem _ hx)) _
      (relaxEdge_preserves hNN h (hsub e (List.mem_cons_self _ _)))

theorem relaxRounds_preserves {E : List Edge} (hNN : NoNegCycle E) :
    ∀ (k : ℕ) (s : BFState),
      BFInv E s.dist s.prev ∧ ¬ HasCycle s.prev →
      BFInv E (relaxRounds E k s).dist (relaxRounds E k s).prev ∧
        ¬ HasCycle (relaxRounds E k s).prev := by
  intro k
  induction k with
  | zero => intro s h; exact h
  | succ k ih =>
    intro s h
    simp only [relaxRounds, relaxPass]
    exact ih _ (foldl_relax_preserves hNN E (fun _ hx => hx) s h)

/-- If the predecessor map has no cycle, the reconstruction walk can
never find a repeat inside its own chain, so it emits nothing. -/
theorem extractLoop_no_cycle {E : List Edge} {p : String → String}
    (hAc : ¬ HasCycle p) :
    ∀ (fuel : ℕ) (vis : String → Bool) (c0 : String) (m : ℕ),
      (∀ k, 1 ≤ k → k ≤ m → p^[k] c0 ≠ "") →
      (extractLoop E p fuel vis ((List.range (m + 1)).map (fun k => p^[k] c0))
        (p^[m] c0)).2 = none := by
  intro fuel
  induction fuel with
  | zero => intro vis c0 m hch; rfl
  | succ fuel ih =>
    intro vis c0 m hch
    simp only [extractLoop]
    split
    · rfl
    · next hnext =>
      split
      · split
        · next i hidx =>
          exfalso
          have hmem : p (p^[m] c0) ∈ (List.range (m + 1)).map (fun k => p^[k] c0) :=
            cycleStartIdx_mem hidx
          simp only [List.mem_map, List.mem_range] at hmem
          obtain ⟨k, hk, hkv⟩ := hmem
          apply hAc
          refine ⟨p^[k] c0, m + 1 - k, ?_, by omega, ?_, ?_⟩
          · rw [hkv]
            exact hnext
          · intro i2 hi2
            rw [← Function.iterate_add_apply]
            rcases Nat.eq_zero_or_pos (i2 + k) with h0 | h0
            · have hi0 : i2 = 0 := by omega
              have hk0 : k = 0 := by omega
              have hkv0 : p^[i2 + k] c0 = p (p^[m] c0) := by
                rw [hi0, hk0]
                rw [hk0] at hkv
                simpa using hkv
              rw [hkv0]
              exact hnext
            · exact hch (i2 + k) h0 (by omega)
          · rw [← Function.iterate_add_apply]
            have hmk : m + 1 - k + k = m + 1 := by omega
            rw [hmk, Function.iterate_succ_apply']
            exact hkv.symm
        · rfl
      · have hconc : (List.range (m + 1)).map (fun k => p^[k] c0) ++ [p (p^[m] c0)] =
            (List.range (m + 1 + 1)).map (fun k => p^[k] c0) := by
          simp only [List.range_succ, List.map_append, List.map_cons, List.map_nil,
            Function.iterate_succ_apply']
        have hcur : p (p^[m] c0) = p^[m + 1] c0 :=
          (Function.iterate_succ_apply' p m c0).symm
        rw [hconc, hcur]
        refine ih _ c0 (m + 1) ?_
        intro k hk1 hk2
        rcases Nat.lt_or_ge k (m + 1) with h | h
        · exact hch k hk1 (by omega)
        · have hkm : k = m + 1 := by omega
          rw [hkm, Function.iterate_succ_apply']
          exact hnext

/-- With an acyclic predecessor map the final check pass appends
nothing. -/
theorem finalPass_no_cycle {E : List Edge} {s : BFState}
    (hAc : ¬ HasCycle s.prev) :
    ∀ (rest : List Edge) (vis : String → Bool) (opps : List (List String)),
      finalPass E s rest vis opps = opps := by
  intro rest
  induction rest with
  | nil => intro vis opps; rfl
  | cons e rest ih =>
    intro vis opps
    simp only [finalPass]
    split
    · exact ih _ _
    · split
      · have h0 := @extractLoop_no_cycle E s.prev hAc (E.length + 1)
          (mapWrite vis e.From true) e.From 0 (by intro k hk1 hk2; omega)
        simp only [List.range_succ, List.range_zero, List.nil_append,
          List.map_cons, List.map_nil, Function.iterate_zero_apply] at h0
        split
        · next vis2 c heq =>
          exfalso
          rw [heq] at h0
          simp at h0
        · exact ih _ _
      · exact ih _ _

/-- C5: if no closed walk of the snapshot's edges has negative total
weight (equivalently, since each weight is `-math.Log` of the rate, no
closed walk has a rate product exceeding 1), `bellmanFord` returns the
empty result: relaxation can then never create a predecessor cycle, so
the final pass reconstructs nothing. -/
theorem detector_empty_without_profitable_cycle :
    ∀ g : Graph, NoNegCycle g.Edges → bellmanFord g = [] := by
  intro g hNN
  unfold bellmanFord
  split
  · rfl
  · have hstep : ∀ (starts : List String) (opps : List (List String)),
        starts.foldl
          (fun opps2 start =>
            finalPass g.Edges
              (relaxRounds g.Edges (g.Vertices.length - 1) (initState g start))
              g.Edges (fun _ => false) opps2)
          opps = opps := by
      intro starts
      induction starts with
      | nil => intro opps; rfl
      | cons st starts ih =>
        intro opps
        rw [List.foldl_cons]
        have hpres := relaxRounds_preserves hNN (g.Vertices.length - 1)
          (initState g st) ⟨bfinv_init g.Edges g st, not_hasCycle_blank⟩
        rw [finalPass_no_cycle hpres.2]
        exact ih opps
    exact hstep g.Vertices []

/-- Witness for C5 on a concrete 2-vertex edgeless graph (which has no
closed walk at all). -/
theorem detector_empty_without_profitable_cycle_witness :
    NoNegCycle edgelessGraph.Edges ∧ bellmanFord edgelessGraph = [] := by
  have hNN : NoNegCycle edgelessGraph.Edges := by
    intro l a hne hp
    cases l with
    | nil => exact absurd rfl hne
    | cons e t =>
      simp only [IsPath] at hp
      exact absurd hp.1 (by simp [edgelessGraph])
  exact ⟨hNN, detector_empty_without_profitable_cycle _ hNN⟩
